import Mathlib

/-!
Verification of the consent / immutable-audit-log core
(src/compliance/audit_logger.py and src/compliance/consent_manager.py).

The Python code is shallowly embedded: dictionaries decoded from or encoded
to JSON become values of a small JSON type, file contents become lists of
lines, clock reads become explicit `now` parameters (seconds since the
epoch), and operations that can raise become `Option`-valued functions.
-/

namespace PrivacyLogs

mutual
/-- Values of the JSON fragment produced by `json.loads` and consumed by
`json.dumps` in the repository: null, booleans, integers, strings, arrays
and objects.  Arrays and object field lists are part of the mutual
inductive so that the serializer below is structurally recursive. -/
inductive JVal : Type where
  | null : JVal
  | bool : Bool → JVal
  | int : Int → JVal
  | str : String → JVal
  | arr : JList → JVal
  | obj : JFields → JVal
inductive JList : Type where
  | nil : JList
  | cons : JVal → JList → JList
inductive JFields : Type where
  | nil : JFields
  | cons : String → JVal → JFields → JFields
end

deriving instance DecidableEq for JVal, JList, JFields

/-- Conversion from an ordinary list of key-value pairs. -/
def jfOf : List (String × JVal) → JFields
  | [] => .nil
  | (k, v) :: rest => .cons k v (jfOf rest)

/-- Conversion of a JSON object field list back to an ordinary list. -/
def jfList : JFields → List (String × JVal)
  | .nil => []
  | .cons k v rest => (k, v) :: jfList rest

/-- Appending one field at the end of an object, as a Python dict item
assignment of a fresh key. -/
def jfAppend : JFields → String × JVal → JFields
  | .nil, p => .cons p.1 p.2 .nil
  | .cons k v rest, p => .cons k v (jfAppend rest p)

/-- Conversion from an ordinary list of JSON values. -/
def jlOf : List JVal → JList
  | [] => .nil
  | v :: rest => .cons v (jlOf rest)

/-- A JSON array of strings. -/
def jstrs (l : List String) : JVal := .arr (jlOf (l.map JVal.str))

/-- Lookup of a key in a JSON object; keys written by the code are unique,
the first occurrence wins as in a Python dict. -/
def jGet : JFields → String → Option JVal
  | .nil, _ => none
  | .cons k v rest, key => if k == key then some v else jGet rest key

/-- Python `dict.get(key)`: a stored JSON null and a missing key both come
back as the Python value `None`, so both are mapped to `none`. -/
def pyGet (fs : JFields) (k : String) : Option JVal :=
  match jGet fs k with
  | some JVal.null => none
  | r => r

/-- Python truthiness of a JSON-decoded value: `None`, `False`, `0`, the
empty string, the empty list and the empty dict are falsy. -/
def jTruthy : JVal → Bool
  | .null => false
  | .bool b => b
  | .int n => n != 0
  | .str s => s != ""
  | .arr .nil => false
  | .arr _ => true
  | .obj .nil => false
  | .obj _ => true

/-- Lowercase hexadecimal digit. -/
def hexDigit (n : Nat) : Char :=
  if n < 10 then Char.ofNat (48 + n) else Char.ofNat (87 + n)

/-- Four lowercase hex digits, most significant first. -/
def hex4 (n : Nat) : String :=
  String.mk [hexDigit (n >>> 12 &&& 15), hexDigit (n >>> 8 &&& 15),
             hexDigit (n >>> 4 &&& 15), hexDigit (n &&& 15)]

/-- Escaping of one character inside a JSON string literal, following
`json.dumps` with its default `ensure_ascii=True`: the named escapes for
quote, backslash and common control characters, `\u00xx` for the other
control characters, `\uxxxx` (with a surrogate pair beyond the basic
plane) for every character above `0x7e`. -/
def escChar (c : Char) : String :=
  let n := c.toNat
  if n == 34 then "\\\""
  else if n == 92 then "\\\\"
  else if n == 8 then "\\b"
  else if n == 9 then "\\t"
  else if n == 10 then "\\n"
  else if n == 12 then "\\f"
  else if n == 13 then "\\r"
  else if n < 32 then "\\u" ++ hex4 n
  else if n < 127 then String.mk [c]
  else if n < 65536 then "\\u" ++ hex4 n
  else
    let m := n - 65536
    "\\u" ++ hex4 (55296 + (m >>> 10)) ++ "\\u" ++ hex4 (56320 + (m &&& 1023))

/-- JSON string literal serialization as in `json.dumps`. -/
def quoteStr (s : String) : String :=
  "\"" ++ String.join (s.data.map escChar) ++ "\""

/-- Lexicographic comparison of character lists by code point. -/
def charsLt : List Char → List Char → Bool
  | [], [] => false
  | [], _ :: _ => true
  | _ :: _, [] => false
  | a :: as, b :: bs =>
      if a.toNat < b.toNat then true
      else if b.toNat < a.toNat then false
      else charsLt as bs

/-- Python string comparison `a < b`: lexicographic by code point. -/
def pyStrLt (a b : String) : Bool := charsLt a.data b.data

/-- Insertion into a list of serialized fields sorted by key; ties keep the
earlier element first, matching Python's stable `sorted`. -/
def insertPair (p : String × String) : List (String × String) → List (String × String)
  | [] => [p]
  | q :: rest => if pyStrLt p.1 q.1 then p :: q :: rest else q :: insertPair p rest

/-- Insertion sort by key, the order `json.dumps(sort_keys=True)` emits
object members in (Python compares strings by code point). -/
def sortPairs : List (String × String) → List (String × String)
  | [] => []
  | p :: rest => insertPair p (sortPairs rest)

/-- One serialized `key: value` member. -/
def memberStr (p : String × String) : String := quoteStr p.1 ++ ": " ++ p.2

mutual
/-- Serializer matching `json.dumps(v, sort_keys=True)` with the default
separators: members joined by a comma and a space, object keys sorted
recursively.  The code only ever hashes this sorted form. -/
def dumpJ : JVal → String
  | .null => "null"
  | .bool b => if b then "true" else "false"
  | .int n => toString n
  | .str s => quoteStr s
  | .arr xs => "[" ++ String.intercalate ", " (dumpJL xs) ++ "]"
  | .obj fs =>
      "\x7b" ++ String.intercalate ", " ((sortPairs (dumpJF fs)).map memberStr) ++ "\x7d"
termination_by structural v => v
def dumpJL : JList → List String
  | .nil => []
  | .cons v rest => dumpJ v :: dumpJL rest
termination_by structural l => l
def dumpJF : JFields → List (String × String)
  | .nil => []
  | .cons k v rest => (k, dumpJ v) :: dumpJF rest
termination_by structural l => l
end

/-- UTF-8 bytes of a string.  Every string the code feeds to
`hashlib.sha256` is ASCII (`json.dumps` escapes everything above `0x7e`
and the previous hash is lowercase hex), and on ASCII the UTF-8 encoding
is the identity on code points. -/
def strBytes (s : String) : List Nat := s.data.map Char.toNat

/-! SHA-256 (FIPS 180-4) over a list of bytes, the `hashlib.sha256`
digest used by `ImmutableAuditLogger._compute_hash`.  Words are `Nat`
reduced modulo `2 ^ 32`. -/

/-- Reduction to a 32-bit word. -/
def w32 (n : Nat) : Nat := n % 4294967296

/-- Right rotation of a 32-bit word. -/
def rotr32 (x n : Nat) : Nat := w32 ((x >>> n) ||| (x <<< (32 - n)))

/-- Choice function of the compression round. -/
def shaCh (x y z : Nat) : Nat := (x &&& y) ^^^ ((x ^^^ 4294967295) &&& z)

/-- Majority function of the compression round. -/
def shaMaj (x y z : Nat) : Nat := (x &&& y) ^^^ (x &&& z) ^^^ (y &&& z)

/-- Big sigma 0. -/
def bsig0 (x : Nat) : Nat := rotr32 x 2 ^^^ rotr32 x 13 ^^^ rotr32 x 22

/-- Big sigma 1. -/
def bsig1 (x : Nat) : Nat := rotr32 x 6 ^^^ rotr32 x 11 ^^^ rotr32 x 25

/-- Small sigma 0. -/
def ssig0 (x : Nat) : Nat := rotr32 x 7 ^^^ rotr32 x 18 ^^^ (x >>> 3)

/-- Small sigma 1. -/
def ssig1 (x : Nat) : Nat := rotr32 x 17 ^^^ rotr32 x 19 ^^^ (x >>> 10)

/-- The first 64 primes, from which the SHA-256 constants derive. -/
def primes64 : List Nat :=
  [2, 3, 5, 7, 11, 13, 17, 19, 23, 29, 31, 37, 41, 43, 47, 53, 59, 61, 67, 71,
   73, 79, 83, 89, 97, 101, 103, 107, 109, 113, 127, 131, 137, 139, 149, 151,
   157, 163, 167, 173, 179, 181, 191, 193, 197, 199, 211, 223, 227, 229, 233,
   239, 241, 251, 257, 263, 269, 271, 277, 281, 283, 293, 307, 311]

/-- Integer cube root by bitwise binary search, exact on the operand
sizes used below. -/
def icbrtAux (n : Nat) : Nat → Nat → Nat
  | 0, r => r
  | k + 1, r =>
      let c := r + (1 <<< k)
      if c * c * c ≤ n then icbrtAux n k c else icbrtAux n k r

/-- Integer cube root. -/
def icbrt (n : Nat) : Nat := icbrtAux n 40 0

/-- Integer square root by bitwise binary search. -/
def isqrtAux (n : Nat) : Nat → Nat → Nat
  | 0, r => r
  | k + 1, r =>
      let c := r + (1 <<< k)
      if c * c ≤ n then isqrtAux n k c else isqrtAux n k r

/-- Integer square root. -/
def isqrt (n : Nat) : Nat := isqrtAux n 40 0

/-- The 64 round constants: the first 32 bits of the fractional parts of
the cube roots of the first 64 primes (FIPS 180-4, 4.2.2); checked below
against the standard test vectors. -/
def K256 : List Nat := primes64.map (fun p => icbrt (p <<< 96) % 4294967296)

/-- The initial hash state: the first 32 bits of the fractional parts of
the square roots of the first 8 primes (FIPS 180-4, 5.3.3). -/
def H256 : List Nat := (primes64.take 8).map (fun p => isqrt (p <<< 64) % 4294967296)

/-- Number of zero bytes of padding after the `0x80` byte. -/
def padZeros (len : Nat) : Nat := (120 - (len + 1) % 64) % 64

/-- Big-endian 8-byte encoding of a length field. -/
def be64 (n : Nat) : List Nat :=
  [(n >>> 56) &&& 255, (n >>> 48) &&& 255, (n >>> 40) &&& 255, (n >>> 32) &&& 255,
   (n >>> 24) &&& 255, (n >>> 16) &&& 255, (n >>> 8) &&& 255, n &&& 255]

/-- Padded message: `0x80`, zeros to 56 mod 64, then the bit length. -/
def padMsg (msg : List Nat) : List Nat :=
  msg ++ 128 :: (List.replicate (padZeros msg.length) 0 ++ be64 (msg.length * 8))

/-- Big-endian grouping of bytes into 32-bit words. -/
def toWords : List Nat → List Nat
  | a :: b :: c :: d :: rest => (((a * 256 + b) * 256 + c) * 256 + d) :: toWords rest
  | _ => []

/-- Grouping of a word list into 16-word blocks; the padded message always
has a multiple of 16 words. -/
def chunk16 : List Nat → List (List Nat)
  | w0 :: w1 :: w2 :: w3 :: w4 :: w5 :: w6 :: w7 ::
    w8 :: w9 :: w10 :: w11 :: w12 :: w13 :: w14 :: w15 :: rest =>
      [w0, w1, w2, w3, w4, w5, w6, w7, w8, w9, w10, w11, w12, w13, w14, w15] :: chunk16 rest
  | _ => []

/-- Message-schedule extension; `acc` holds the words produced so far in
reverse order, so the four taps sit at fixed positions. -/
def extendW : Nat → List Nat → List Nat
  | 0, acc => acc.reverse
  | fuel + 1, acc =>
      let wi := w32 (ssig1 (acc.getD 1 0) + acc.getD 6 0 + ssig0 (acc.getD 14 0) + acc.getD 15 0)
      extendW fuel (wi :: acc)

/-- The 64-word message schedule of one block. -/
def schedule (block : List Nat) : List Nat := extendW 48 block.reverse

/-- One compression round; the state is the eight words `a` through `h`,
and `kw` is the already-added round constant plus schedule word. -/
def shaRound (st : List Nat) (kw : Nat) : List Nat :=
  match st with
  | [a, b, c, d, e, f, g, h] =>
      let t1 := w32 (h + bsig1 e + shaCh e f g + kw)
      let t2 := w32 (bsig0 a + shaMaj a b c)
      [w32 (t1 + t2), a, b, c, w32 (d + t1), e, f, g]
  | other => other

/-- Compression of one 16-word block into the running state. -/
def compressBlock (st block : List Nat) : List Nat :=
  let kws := (K256.zip (schedule block)).map (fun p => w32 (p.1 + p.2))
  let st2 := kws.foldl shaRound st
  (st.zip st2).map (fun p => w32 (p.1 + p.2))

/-- SHA-256 digest of a byte list, as the eight state words. -/
def sha256Words (msg : List Nat) : List Nat :=
  (chunk16 (toWords (padMsg msg))).foldl compressBlock H256

/-- Eight lowercase hex digits of one word. -/
def hex8 (n : Nat) : String := hex4 (n >>> 16) ++ hex4 (n &&& 65535)

/-- The `hexdigest()` of SHA-256 over a byte list. -/
def sha256Hex (msg : List Nat) : String :=
  String.join ((sha256Words msg).map hex8)

/-! The audit log store (`ImmutableAuditLogger`).  A day-partition is one
`audit_log_YYYY-MM-DD.jsonl` file; its content is a list of lines, each
line either a parsed JSON object (every line the logger itself writes) or
a malformed line that `json.loads` rejects.  Time is seconds since the
epoch; the partition of an instant is its epoch day (`datetime.now()` is
taken as a UTC-like fixed-offset clock, so midnight of epoch day `d` has
timestamp `d * 86400`). -/

/-- One stored line of a partition file. -/
inductive Line : Type where
  | ok : JFields → Line
  | bad : Line

/-- One day-partition: its file content plus whether opening it for
reading succeeds (an unreadable file makes `open` raise). -/
structure Partition where
  readable : Bool
  lines : List Line

/-- The audit log store: the log directory name and the partition files
keyed by epoch day, listed in directory order.  `pathlib.Path.glob`
enumerates files in an unspecified directory order, so the list order is
part of the state and is not assumed sorted. -/
structure AuditState where
  dir : String
  days : List (Nat × Partition)

/-- Civil date (year, month, day) of an epoch day, standard civil-from-days
calendar arithmetic. -/
def civilFromDays (days : Nat) : Nat × Nat × Nat :=
  let z := days + 719468
  let era := z / 146097
  let doe := z % 146097
  let yoe := (doe - doe / 1460 + doe / 36524 - doe / 146096) / 365
  let y := yoe + era * 400
  let doy := doe - (365 * yoe + yoe / 4 - yoe / 100)
  let mp := (5 * doy + 2) / 153
  let d := doy - (153 * mp + 2) / 5 + 1
  let m := if mp < 10 then mp + 3 else mp - 9
  (if m ≤ 2 then y + 1 else y, m, d)

/-- Two-digit zero-padded decimal. -/
def pad2 (n : Nat) : String := if n < 10 then "0" ++ toString n else toString n

/-- The `%Y-%m-%d` date string of an epoch day. -/
def dayStr (d : Nat) : String :=
  let c := civilFromDays d
  toString c.1 ++ "-" ++ pad2 c.2.1 ++ "-" ++ pad2 c.2.2

/-- Path of a day-partition file, as `str(log_dir / f"audit_log_[date].jsonl")`. -/
def logFileName (dir : String) (d : Nat) : String :=
  dir ++ "/audit_log_" ++ dayStr d ++ ".jsonl"

/-- Lookup by day in a directory listing. -/
def findDayL (ds : List (Nat × Partition)) (d : Nat) : Option Partition :=
  (ds.find? (fun p => p.1 == d)).map Prod.snd

/-- Partition lookup by day (file existence and content). -/
def lookupDay (st : AuditState) (d : Nat) : Option Partition :=
  findDayL st.days d

/-- Hash recorded on one parsed line: `obj.get("hash")` with a stored null
indistinguishable from a missing key; a malformed line yields `none`
through the `json.JSONDecodeError` handler. -/
def lineHash : Line → Option JVal
  | .ok fs => pyGet fs "hash"
  | .bad => none

/-- Embedding of `ImmutableAuditLogger._get_last_hash`: `none` when the
current day-partition file does not exist, cannot be opened, is empty, or
its last line is malformed; otherwise the `hash` field of the last line. -/
def getLastHash (st : AuditState) (today : Nat) : Option JVal :=
  match lookupDay st today with
  | none => none
  | some p =>
      if p.readable then
        match p.lines.getLast? with
        | none => none
        | some l => lineHash l
      else none

/-- Appending one line to the day-partition file keyed `d` in a directory
listing; the file is created at the end of the listing when absent
(`open(file, "a")`).  Directory keys are unique, so updating the first
occurrence is the file-system semantics. -/
def appendDays (d : Nat) (l : Line) : List (Nat × Partition) → List (Nat × Partition)
  | [] => [(d, { readable := true, lines := [l] })]
  | p :: rest =>
      if p.1 == d then (p.1, { readable := p.2.readable, lines := p.2.lines ++ [l] }) :: rest
      else p :: appendDays d l rest

/-- Appending one line to the current day-partition file, creating the
file when absent. -/
def appendLine (st : AuditState) (d : Nat) (l : Line) : AuditState :=
  { dir := st.dir, days := appendDays d l st.days }

/-- Deleting one day-partition file (`log_file.unlink()`). -/
def removeDay (st : AuditState) (d : Nat) : AuditState :=
  { st with days := st.days.filter (fun p => p.1 != d) }

/-- Arguments of one `log_event` call.  `event_id` is the fresh
`uuid.uuid4()` and `ts` the `datetime.now().isoformat()` string, both
supplied by the environment. -/
structure EvArgs where
  user_id : String
  action : String
  resource : String
  details : Option JFields
  status : String
  event_id : String
  ts : String

/-- The `details.get(key) if details else None` lookups: `None` and the
empty dict are both falsy. -/
def detGet (details : Option JFields) (k : String) : JVal :=
  match details with
  | none => .null
  | some .nil => .null
  | some fs => (jGet fs k).getD .null

/-- The log entry dict built by `log_event`, in insertion order, before
`prev_hash` and `hash` are added. -/
def entryCore (a : EvArgs) : JFields :=
  jfOf [("event_id", .str a.event_id), ("timestamp", .str a.ts),
        ("user_id", .str a.user_id), ("action", .str a.action),
        ("resource", .str a.resource), ("status", .str a.status),
        ("details", .obj (a.details.getD .nil)),
        ("ip_address", detGet a.details "ip_address"),
        ("user_agent", detGet a.details "user_agent")]

/-- The `prev_hash.encode("utf-8")` step of `_compute_hash`: a falsy
previous value contributes nothing, a truthy string is the hash prefix,
and a truthy non-string raises (`encode` is not defined on it), which
`log_event` re-raises. -/
def hashPfx : Option JVal → Option String
  | none => some ""
  | some v =>
      if jTruthy v then
        match v with
        | .str s => some s
        | _ => none
      else some ""

/-- Embedding of `ImmutableAuditLogger._compute_hash`: SHA-256 over the
optional previous-hash prefix followed by `json.dumps(entry, sort_keys=True)`
of the entry dict as passed in (which at the call site already contains
`prev_hash` but not yet `hash`). -/
def compute_hash (pfx : String) (entry : JFields) : String :=
  sha256Hex (strBytes (pfx ++ dumpJ (.obj entry)))

/-- Embedding of `ImmutableAuditLogger.log_event`: reads the last hash of
the current day-partition, stores it as `prev_hash`, chains the SHA-256
hash over the entry, appends the entry to the partition and returns the
event id.  `none` models the raised exception of the truthy-non-string
previous-hash case; file-write failures are not modelled (writes succeed). -/
def log_event (st : AuditState) (now : Nat) (a : EvArgs) : Option (AuditState × String) :=
  let today := now / 86400
  let prev := getLastHash st today
  let fields := jfAppend (entryCore a) ("prev_hash", prev.getD .null)
  match hashPfx prev with
  | none => none
  | some pfx =>
      let h := compute_hash pfx fields
      let entry := jfAppend fields ("hash", .str h)
      some (appendLine st today (.ok entry), a.event_id)

/-- File-level date filter of `get_logs`: skip when the stem date is
before `start_date` or after `end_date`.  The code compares `%Y-%m-%d`
strings, which on such strings coincides with comparing epoch days. -/
def keepFile (sd ed : Option Nat) (d : Nat) : Bool :=
  (match sd with | none => true | some s => !(d < s)) &&
  (match ed with | none => true | some e => !(e < d))

/-- Entry-level filters of `get_logs`; a filter set to the empty string is
falsy in Python and therefore disabled, like an absent one. -/
def passFilters (u a : String) (fs : JFields) : Bool :=
  (u == "" || pyGet fs "user_id" == some (.str u)) &&
  (a == "" || pyGet fs "action" == some (.str a))

/-- Line scan of one partition file: malformed lines are skipped
(`json.JSONDecodeError` handler), matching entries are accumulated, and
once `limit` entries are collected the call returns early (the flag). -/
def scanLines (limit : Nat) (u a : String) : List Line → List JFields → List JFields × Bool
  | [], acc => (acc, false)
  | .bad :: rest, acc => scanLines limit u a rest acc
  | .ok fs :: rest, acc =>
      if passFilters u a fs then
        let acc2 := acc ++ [fs]
        if limit ≤ acc2.length then (acc2.take limit, true)
        else scanLines limit u a rest acc2
      else scanLines limit u a rest acc

/-- Scan over the selected partition files in directory order; opening an
unreadable file raises an uncaught exception, aborting the whole query. -/
def scanFiles (limit : Nat) (u a : String) : List (Nat × Partition) → List JFields → Option (List JFields)
  | [], acc => some (acc.take limit)
  | (_, p) :: rest, acc =>
      if p.readable then
        match scanLines limit u a p.lines acc with
        | (acc2, true) => some acc2
        | (acc2, false) => scanFiles limit u a rest acc2
      else none

/-- Embedding of `ImmutableAuditLogger.get_logs` with the merged filter
values: date range (epoch days, inclusive), `user_id` and `action` filters
(empty string when absent) and `limit`.  Entries are the parsed stored
objects, in scan order. -/
def get_logs (st : AuditState) (sd ed : Option Nat) (u a : String) (limit : Nat) :
    Option (List JFields) :=
  scanFiles limit u a (st.days.filter (fun p => keepFile sd ed p.1)) []

/-- Arguments of the deletion event `cleanup_old_logs` records before
unlinking one partition. -/
def delArgs (dir : String) (d : Nat) (retention : Nat) (meta : String × String) : EvArgs :=
  { user_id := "system", action := "delete", resource := logFileName dir d,
    details := some (jfOf [("reason", .str "retention_policy"),
                           ("retention_days", .int retention)]),
    status := "success", event_id := meta.1, ts := meta.2 }

/-- Loop of `cleanup_old_logs` over the snapshot of partition days, in
directory order.  A partition dated before the cutoff gets a deletion
event logged (into the current partition) and is then unlinked.  `none`
models the only exception the `except (ValueError, OSError)` clause does
not catch: `log_event` re-raising on a truthy non-string last hash. -/
def cleanupGo (now retention : Nat) (ids : Nat → String × String) (cutoff : Int) :
    List Nat → AuditState → Nat → Option (AuditState × Nat)
  | [], st, cnt => some (st, cnt)
  | d :: rest, st, cnt =>
      if ((d : Int) * 86400 < cutoff) then
        match log_event st now (delArgs st.dir d retention (ids cnt)) with
        | none => none
        | some (st2, _) => cleanupGo now retention ids cutoff rest (removeDay st2 d) (cnt + 1)
      else cleanupGo now retention ids cutoff rest st cnt

/-- Embedding of `ImmutableAuditLogger.cleanup_old_logs`: the cutoff is
`now - retention_days * 86400` and a partition is removed when the
timestamp of its date (midnight, `d * 86400`) is strictly below it.
`ids` supplies the uuid and timestamp of the k-th deletion event. -/
def cleanup_old_logs (st : AuditState) (now retention : Nat) (ids : Nat → String × String) :
    Option (AuditState × Nat) :=
  cleanupGo now retention ids ((now : Int) - (retention : Int) * 86400)
    (st.days.map Prod.fst) st 0

/-! The consent store (`ConsentManager`, directory mode, one
`[employee_id].json` file per subject; the single-file mode differs only
in storage layout).  A stored record is modelled by its parsed fields;
the `expiration_date` string is modelled by the outcome of
`datetime.fromisoformat` on it: either the instant it denotes (epoch
seconds) or the raised `ValueError`. -/

/-- Outcome of parsing a stored `expiration_date` string. -/
inductive ExpVal : Type where
  | iso : Int → ExpVal
  | invalid : ExpVal
deriving DecidableEq

/-- A parsed consent record, with the fields `set_consent` writes. -/
structure CRec where
  employee_id : String
  monitoring_enabled : Bool
  retention_days : Int
  data_retention_days : Int
  allow_analytics : Bool
  expiration_date : ExpVal
  data_categories : List String
  last_updated : String
  last_updated_by : String
deriving DecidableEq

/-- One stored consent file: a record `json.load` accepts, or a file that
fails to read or parse (any exception). -/
inductive CFile : Type where
  | ok : CRec → CFile
  | bad : CFile
deriving DecidableEq

/-- Combined state: the audit log store the `ConsentManager` logs into
(the module-level `audit_logger`) and the consent files keyed by subject,
in directory order. -/
structure SysState where
  audit : AuditState
  consents : List (String × CFile)

/-- The audit resource string `f"employee/[employee_id]/consent"`. -/
def consentResource (eid : String) : String := "employee/" ++ eid ++ "/consent"

/-- Consent file lookup. -/
def lookupConsent (cs : List (String × CFile)) (eid : String) : Option CFile :=
  (cs.find? (fun p => p.1 == eid)).map Prod.snd

/-- Overwriting (or creating) the consent file of one subject; keys are
unique, so replacing the first occurrence is the file-system semantics. -/
def putConsent (eid : String) (f : CFile) : List (String × CFile) → List (String × CFile)
  | [] => [(eid, f)]
  | p :: rest => if p.1 == eid then (p.1, f) :: rest else p :: putConsent eid f rest

/-- Arguments of the audit event `set_consent` records. -/
def setArgs (eid : String) (monitoring : Bool) (retention : Int) (cats : List String)
    (requester : String) (meta : String × String) : EvArgs :=
  { user_id := requester, action := "set_consent", resource := consentResource eid,
    details := some (jfOf [("monitoring_enabled", .bool monitoring),
                           ("retention_days", .int retention),
                           ("data_categories", jstrs cats)]),
    status := "success", event_id := meta.1, ts := meta.2 }

/-- Embedding of `ConsentManager.set_consent`.  The retention period is
the legacy `data_retention_days` when supplied, else `retention_days`,
else the default 90; the expiration is the write time plus that many
days.  The record is persisted (full overwrite), then the audit event is
logged.  `none` models the audit append raising (the file write has
happened by then, but the call fails); `lu` is the `last_updated`
timestamp string and `meta` the audit event's uuid and timestamp. -/
def set_consent (st : SysState) (now : Nat) (eid : String) (monitoring : Bool)
    (retention_days : Option Int) (data_categories : Option (List String))
    (requester_id : String) (data_retention_days : Option Int)
    (allow_analytics : Option Bool) (lu : String) (meta : String × String) :
    Option (SysState × CRec) :=
  let retention := data_retention_days.getD (retention_days.getD 90)
  let cats := data_categories.getD ["all"]
  let r : CRec :=
    { employee_id := eid, monitoring_enabled := monitoring,
      retention_days := retention, data_retention_days := retention,
      allow_analytics := allow_analytics.getD true,
      expiration_date := .iso ((now : Int) + retention * 86400),
      data_categories := cats, last_updated := lu, last_updated_by := requester_id }
  let cs2 := putConsent eid (.ok r) st.consents
  match log_event st.audit now (setArgs eid monitoring retention cats requester_id meta) with
  | none => none
  | some (au2, _) => some ({ audit := au2, consents := cs2 }, r)

/-- Arguments of the audit event `get_consent` records on a successful
lookup. -/
def accessArgs (eid : String) (meta : String × String) : EvArgs :=
  { user_id := "system", action := "access_consent", resource := consentResource eid,
    details := some (jfOf [("access_type", .str "read")]), status := "success",
    event_id := meta.1, ts := meta.2 }

/-- Embedding of `ConsentManager.get_consent`: a missing file returns
`none` without logging; a file whose read or parse raises returns `none`
through the catch-all handler; otherwise the access event is logged and
the record returned.  The catch-all also swallows a raising audit append,
returning `none` with nothing written. -/
def get_consent (st : SysState) (now : Nat) (eid : String) (meta : String × String) :
    Option CRec × SysState :=
  match lookupConsent st.consents eid with
  | none => (none, st)
  | some .bad => (none, st)
  | some (.ok r) =>
      match log_event st.audit now (accessArgs eid meta) with
      | none => (none, st)
      | some (au2, _) => (some r, { audit := au2, consents := st.consents })

/-- Embedding of `ConsentManager.is_monitoring_allowed`: `False` without a
record, `False` when the stored expiration fails to parse, `False` when
`now` is strictly past the expiration, else the stored flag. -/
def is_monitoring_allowed (st : SysState) (now : Nat) (eid : String) (meta : String × String) :
    Bool × SysState :=
  match get_consent st now eid meta with
  | (none, st2) => (false, st2)
  | (some r, st2) =>
      match r.expiration_date with
      | .invalid => (false, st2)
      | .iso t => if (now : Int) > t then (false, st2) else (r.monitoring_enabled, st2)

/-- Arguments of the audit event the retention sweep records before
deleting one expired record. -/
def delConsentArgs (eid : String) (meta : String × String) : EvArgs :=
  { user_id := "system", action := "delete_consent", resource := consentResource eid,
    details := some (jfOf [("reason", .str "retention_policy_expired")]),
    status := "success", event_id := meta.1, ts := meta.2 }

/-- Loop of `apply_retention_policy` (no external logger) over the
snapshot of consent files: a file that fails to read or whose expiration
fails to parse is skipped by the per-record `except` handler; an expired
record gets a `delete_consent` event logged and is unlinked (when the
audit append raises, the same handler skips the record undeleted).  The
result is the audit state, the deleted keys in order, and the count. -/
def retentionGo (now : Nat) (ids : Nat → String × String) :
    List (String × CFile) → AuditState → List String → Nat → AuditState × List String × Nat
  | [], au, dels, cnt => (au, dels, cnt)
  | (eid, f) :: rest, au, dels, cnt =>
      match f with
      | .bad => retentionGo now ids rest au dels cnt
      | .ok r =>
          match r.expiration_date with
          | .invalid => retentionGo now ids rest au dels cnt
          | .iso t =>
              if (now : Int) > t then
                match log_event au now (delConsentArgs eid (ids cnt)) with
                | none => retentionGo now ids rest au dels cnt
                | some (au2, _) => retentionGo now ids rest au2 (dels ++ [eid]) (cnt + 1)
              else retentionGo now ids rest au dels cnt

/-- Embedding of `ConsentManager.apply_retention_policy` called without an
external logger: sweeps every stored record, deletes the expired ones and
returns the new state with the deletion count. -/
def apply_retention_policy (st : SysState) (now : Nat) (ids : Nat → String × String) :
    SysState × Nat :=
  let res := retentionGo now ids st.consents st.audit [] 0
  ({ audit := res.1, consents := st.consents.filter (fun p => !(res.2.1.contains p.1)) },
   res.2.2)

/-! Derived notions used to state the claims, written from the claims
rather than from the loop structure of the code. -/

/-- Content of one day-partition file, the empty list when the file does
not exist. -/
def partLines (st : AuditState) (d : Nat) : List Line :=
  match lookupDay st d with
  | none => []
  | some p => p.lines

/-- The hash field of the last entry of a day-partition, `none` when the
partition is new or empty (reading the file content directly, without the
error handling of `_get_last_hash`). -/
def lastEntryHash (st : AuditState) (d : Nat) : Option JVal :=
  match (partLines st d).getLast? with
  | some (.ok fs) => pyGet fs "hash"
  | _ => none

/-- The previous-hash prefix of the digest input as the claims word it:
the previous hash string when there is one, nothing otherwise. -/
def pfxStr : Option JVal → String
  | some (.str s) => s
  | _ => ""

/-- Removal of one field of a JSON object. -/
def removeKey : JFields → String → JFields
  | .nil, _ => .nil
  | .cons k v rest, key =>
      if k == key then removeKey rest key else .cons k v (removeKey rest key)

/-- The full entry `log_event st now a` appends to the current partition,
issued and read off from the success branch of `log_event`. -/
def storedEntry (st : AuditState) (now : Nat) (a : EvArgs) : JFields :=
  let prev := getLastHash st (now / 86400)
  let fields := jfAppend (entryCore a) ("prev_hash", prev.getD .null)
  jfAppend fields ("hash", .str (compute_hash ((hashPfx prev).getD "") fields))

/-- An audit append at the current day will not raise: the last line of
the current partition does not carry a truthy non-string hash. -/
def appendOk (st : AuditState) (now : Nat) : Bool :=
  (hashPfx (getLastHash st (now / 86400))).isSome

/-- Well-formed current partition: file readable and every line a parsed
JSON object. -/
def wfToday (st : AuditState) (d : Nat) : Bool :=
  match lookupDay st d with
  | none => true
  | some p => p.readable && p.lines.all (fun l => match l with | .ok _ => true | .bad => false)

/-- A partition whose last stored line is malformed or whose file cannot
be read (the premise of claim C10). -/
def lastBadOrUnreadable (st : AuditState) (d : Nat) : Bool :=
  match lookupDay st d with
  | none => false
  | some p =>
      !p.readable || (match p.lines.getLast? with | some .bad => true | _ => false)

/-- A field of a stored line, `none` on a malformed line. -/
def lineField (l : Line) (k : String) : Option JVal :=
  match l with
  | .ok fs => jGet fs k
  | .bad => none

/-- A consent file holding a record whose expiration parsed and lies
strictly before `now`. -/
def isExpired (now : Nat) : CFile → Bool
  | .ok r => match r.expiration_date with
             | .iso t => if (now : Int) > t then true else false
             | .invalid => false
  | .bad => false

/-- Entries of one partition that parse and pass the entry-level filters,
in file order. -/
def matchingEntries (u a : String) (lines : List Line) : List JFields :=
  lines.filterMap (fun l =>
    match l with
    | .ok fs => if passFilters u a fs then some fs else none
    | .bad => none)

/-- The query result claim C7 describes, over the partition listing
order: concatenate the matching entries of the in-range partitions and
truncate to `limit`. -/
def specLogs (st : AuditState) (sd ed : Option Nat) (u a : String) (limit : Nat) :
    List JFields :=
  (((st.days.filter (fun p => keepFile sd ed p.1)).map
      (fun p => matchingEntries u a p.2.lines)).flatten).take limit

/-- The digest claim C1 as frozen prescribes: previous hash concatenated
with the canonical serialization of the entry fields excluding both
`hash` and `prev_hash`. -/
def claimHashC1 (st : AuditState) (now : Nat) (a : EvArgs) : String :=
  sha256Hex (strBytes (pfxStr (lastEntryHash st (now / 86400)) ++
    dumpJ (.obj (removeKey (removeKey (storedEntry st now a) "hash") "prev_hash"))))

/-! Concrete states and inputs for the witnesses and counterexamples. -/

/-- A fixed uuid/timestamp supply. -/
def idsW : Nat → String × String := fun n => ("uuid-" ++ toString n, "ts-" ++ toString n)

/-- A well-formed stored audit entry used in concrete states. -/
def entryW : JFields :=
  jfOf [("event_id", .str "e0"), ("user_id", .str "u0"), ("action", .str "login"),
        ("hash", .str "aa11")]

/-- Audit state with one readable current-day partition holding one
well-formed entry (epoch day 0). -/
def auditW : AuditState :=
  { dir := "audit_logs", days := [(0, { readable := true, lines := [.ok entryW] })] }

/-- The empty audit store. -/
def auditEmpty : AuditState := { dir := "audit_logs", days := [] }

/-- Arguments of a concrete `log_event` call. -/
def argsW : EvArgs :=
  { user_id := "u1", action := "a1", resource := "r1", details := none,
    status := "success", event_id := "id1", ts := "t1" }

/-- Audit state whose single (current-day) partition ends in a malformed
line. -/
def auditBadTail : AuditState :=
  { dir := "audit_logs", days := [(0, { readable := true, lines := [.ok entryW, .bad] })] }

/-- Audit state for the prune counterexample: one second past midnight of
epoch day 1, the store holds only the current partition (day 1). -/
def auditCur : AuditState :=
  { dir := "audit_logs", days := [(1, { readable := true, lines := [.ok entryW] })] }

/-- Audit state with one old partition (day 0) and the current partition
(day 100). -/
def auditTwo : AuditState :=
  { dir := "audit_logs",
    days := [(0, { readable := true, lines := [.ok entryW] }),
             (100, { readable := true, lines := [.ok entryW] })] }

/-- A consent record expiring at epoch second 500, monitoring enabled. -/
def recW : CRec :=
  { employee_id := "e1", monitoring_enabled := true, retention_days := 90,
    data_retention_days := 90, allow_analytics := true, expiration_date := .iso 500,
    data_categories := ["all"], last_updated := "t0", last_updated_by := "system" }

/-- A consent record whose stored expiration string does not parse. -/
def recInvalid : CRec :=
  { employee_id := "e2", monitoring_enabled := true, retention_days := 90,
    data_retention_days := 90, allow_analytics := true, expiration_date := .invalid,
    data_categories := ["all"], last_updated := "t0", last_updated_by := "system" }

/-- Combined state with one parsable record, one record with unparsable
expiration and one unreadable consent file, over an empty audit store. -/
def sysW : SysState :=
  { audit := auditEmpty,
    consents := [("e1", .ok recW), ("e2", .ok recInvalid), ("e3", .bad)] }

/-- Consent state of the C4 failing input: a single record whose stored
expiration does not parse. -/
def sysInvalidOnly : SysState :=
  { audit := auditEmpty, consents := [("e2", .ok recInvalid)] }

/-- Entry stored in the day-1 partition of the C7 counterexample state. -/
def entryDay1 : JFields :=
  jfOf [("event_id", .str "e1"), ("user_id", .str "u1"), ("action", .str "login"),
        ("hash", .str "h1")]

/-- Entry stored in the day-2 partition of the C7 counterexample state. -/
def entryDay2 : JFields :=
  jfOf [("event_id", .str "e2"), ("user_id", .str "u2"), ("action", .str "logout"),
        ("hash", .str "h2")]

/-- Audit state whose directory listing enumerates the day-2 partition
before the day-1 partition, as `Path.glob` may. -/
def auditUnsorted : AuditState :=
  { dir := "audit_logs",
    days := [(2, { readable := true, lines := [.ok entryDay2] }),
             (1, { readable := true, lines := [.ok entryDay1] })] }

/-! The statements of the claims with hypotheses, as named propositions so
that each witness can reuse its theorem's conclusion verbatim. -/

/-- Conclusion of claim C1 as amended: the call appends one entry whose
`prev_hash` is the hash field of the last entry of the current partition
(null when new or empty) and whose `hash` is the digest of the previous
hash concatenated with the canonical serialization of the entry without
its `hash` field (but still containing `prev_hash`). -/
def C1Concl (st : AuditState) (now : Nat) (a : EvArgs) : Prop :=
  ∃ st2, log_event st now a = some (st2, a.event_id) ∧
    partLines st2 (now / 86400) = partLines st (now / 86400) ++ [.ok (storedEntry st now a)] ∧
    jGet (storedEntry st now a) "prev_hash" =
      some ((lastEntryHash st (now / 86400)).getD .null) ∧
    jGet (storedEntry st now a) "hash" =
      some (.str (sha256Hex (strBytes (pfxStr (lastEntryHash st (now / 86400)) ++
        dumpJ (.obj (removeKey (storedEntry st now a) "hash"))))))

/-- Conclusion of claim C10: with a malformed or unreadable partition
tail, `_get_last_hash` yields the absence marker and the entry is written
with a null `prev_hash`, restarting the chain. -/
def C10Concl (st : AuditState) (now : Nat) (a : EvArgs) : Prop :=
  getLastHash st (now / 86400) = none ∧
  ∃ st2, log_event st now a = some (st2, a.event_id) ∧
    partLines st2 (now / 86400) = partLines st (now / 86400) ++ [.ok (storedEntry st now a)] ∧
    jGet (storedEntry st now a) "prev_hash" = some .null

/-- Conclusion of claim C3, by cases on the stored consent: absent record,
unparsable expiration, expired record, and the live case. -/
def C3Concl (st : SysState) (now : Nat) (eid : String) (meta : String × String) : Prop :=
  (lookupConsent st.consents eid = none →
    (is_monitoring_allowed st now eid meta).1 = false) ∧
  (∀ r, lookupConsent st.consents eid = some (.ok r) → r.expiration_date = .invalid →
    (is_monitoring_allowed st now eid meta).1 = false) ∧
  (∀ r t, lookupConsent st.consents eid = some (.ok r) → r.expiration_date = .iso t →
    (now : Int) > t → (is_monitoring_allowed st now eid meta).1 = false) ∧
  (∀ r t, lookupConsent st.consents eid = some (.ok r) → r.expiration_date = .iso t →
    ¬((now : Int) > t) →
    (is_monitoring_allowed st now eid meta).1 = r.monitoring_enabled)

/-- Conclusion of claim C8: an absent record comes back as the absent
result with nothing changed, and a successful lookup returns the stored
record and appends one `access_consent` audit event. -/
def C8Concl (st : SysState) (now : Nat) (eid : String) (meta : String × String) : Prop :=
  (lookupConsent st.consents eid = none → get_consent st now eid meta = (none, st)) ∧
  (∀ r, lookupConsent st.consents eid = some (.ok r) →
    ∃ au2, get_consent st now eid meta = (some r, { audit := au2, consents := st.consents }) ∧
      ∃ l, partLines au2 (now / 86400) = partLines st.audit (now / 86400) ++ [l] ∧
        lineField l "action" = some (.str "access_consent") ∧
        lineField l "resource" = some (.str (consentResource eid)))

/-- Conclusion of claim C9: a failing read returns the absent result with
the state untouched, exactly like a missing record does. -/
def C9Concl (st : SysState) (now : Nat) (eid : String) (meta : String × String) : Prop :=
  get_consent st now eid meta = (none, st) ∧
  ∀ cs2, lookupConsent cs2 eid = none →
    get_consent { audit := st.audit, consents := cs2 } now eid meta =
      (none, { audit := st.audit, consents := cs2 })

/-- One deletion event of the consent sweep, paired with the record it
deletes. -/
def delEvSpec (l : Line) (p : String × CFile) : Prop :=
  lineField l "user_id" = some (.str "system") ∧
  lineField l "action" = some (.str "delete_consent") ∧
  lineField l "resource" = some (.str (consentResource p.1))

/-- Conclusion of claim C5: the sweep deletes exactly the expired
records, returns their number, leaves the others untouched, and appends
one `delete_consent` audit event per deleted record. -/
def C5Concl (st : SysState) (now : Nat) (ids : Nat → String × String) : Prop :=
  (apply_retention_policy st now ids).2 =
      (st.consents.filter (fun p => isExpired now p.2)).length ∧
  (apply_retention_policy st now ids).1.consents =
      st.consents.filter (fun p => !isExpired now p.2) ∧
  ∃ evs, partLines (apply_retention_policy st now ids).1.audit (now / 86400) =
      partLines st.audit (now / 86400) ++ evs ∧
    List.Forall₂ delEvSpec evs (st.consents.filter (fun p => isExpired now p.2))

/-- Conclusion of claim C6: the write computes the expiration from the
write time and the (defaulted) retention, fully replaces the subject's
record, leaves other subjects alone, returns the record with the given
flag, and appends one `set_consent` audit event carrying the settings. -/
def C6Concl (st : SysState) (now : Nat) (eid : String) (monitoring : Bool)
    (retention_days : Option Int) (data_categories : Option (List String))
    (requester_id lu : String) (meta : String × String) : Prop :=
  ∃ st2 r, set_consent st now eid monitoring retention_days data_categories
      requester_id none none lu meta = some (st2, r) ∧
    r = { employee_id := eid, monitoring_enabled := monitoring,
          retention_days := retention_days.getD 90,
          data_retention_days := retention_days.getD 90, allow_analytics := true,
          expiration_date := .iso ((now : Int) + retention_days.getD 90 * 86400),
          data_categories := data_categories.getD ["all"],
          last_updated := lu, last_updated_by := requester_id } ∧
    lookupConsent st2.consents eid = some (.ok r) ∧
    (∀ k, k ≠ eid → lookupConsent st2.consents k = lookupConsent st.consents k) ∧
    ∃ l, partLines st2.audit (now / 86400) = partLines st.audit (now / 86400) ++ [l] ∧
      lineField l "action" = some (.str "set_consent") ∧
      lineField l "user_id" = some (.str requester_id) ∧
      lineField l "details" = some (.obj (jfOf
        [("monitoring_enabled", .bool monitoring),
         ("retention_days", .int (retention_days.getD 90)),
         ("data_categories", jstrs (data_categories.getD ["all"]))]))

/-- Readability of a day-partition file, `true` when the file does not
exist yet (creating it makes it readable). -/
def readableAt (st : AuditState) (d : Nat) : Bool :=
  match lookupDay st d with
  | none => true
  | some p => p.readable

/-- Conclusion of claim C7 as amended: the query result equals the
matching in-range entries in directory-listing order, truncated to
`limit` (so at most `limit` entries, only in-range entries passing the
filters, within-partition order preserved; oldest-partition-first exactly
when the listing is date-sorted, which the code does not enforce). -/
def C7Concl (st : AuditState) (sd ed : Option Nat) (u a : String) (limit : Nat) : Prop :=
  get_logs st sd ed u a limit = some (specLogs st sd ed u a limit)

/-- One deletion event of the audit prune, paired with the day it
deletes. -/
def delLogSpec (dir : String) (l : Line) (d : Nat) : Prop :=
  lineField l "user_id" = some (.str "system") ∧
  lineField l "action" = some (.str "delete") ∧
  lineField l "resource" = some (.str (logFileName dir d))

/-- Days of a listing whose midnight timestamp lies strictly before `now`
minus the retention window. -/
def oldOf (now retention : Nat) (ds : List Nat) : List Nat :=
  ds.filter (fun d => decide ((d : Int) * 86400 < (now : Int) - (retention : Int) * 86400))

/-- The days the prune removes. -/
def oldDays (st : AuditState) (now retention : Nat) : List Nat :=
  oldOf now retention (st.days.map Prod.fst)

/-- Conclusion of claim C2 as amended (for a positive retention window):
the prune deletes exactly the partitions older than the cutoff, returns
their number, leaves every other partition except the current one
untouched, and appends one deletion event per removed partition — system
actor, action `delete`, resource the partition file path — to the current
partition, which is itself never deleted. -/
def C2Concl (st : AuditState) (now retention : Nat) (ids : Nat → String × String) : Prop :=
  ∃ st2, cleanup_old_logs st now retention ids = some (st2, (oldDays st now retention).length) ∧
    (∀ d, d ∈ oldDays st now retention → lookupDay st2 d = none) ∧
    (∀ d : Nat, ¬((d : Int) * 86400 < (now : Int) - (retention : Int) * 86400) →
      d ≠ now / 86400 → lookupDay st2 d = lookupDay st d) ∧
    ∃ evs, partLines st2 (now / 86400) = partLines st (now / 86400) ++ evs ∧
      List.Forall₂ (delLogSpec st.dir) evs (oldDays st now retention)

/-! Sanity anchors for the SHA-256 embedding: the FIPS 180-4 test
vectors pin down the derived constants and the whole pipeline. -/

theorem sha256Hex_abc :
    sha256Hex [97, 98, 99] =
      "ba7816bf8f01cfea414140de5dae2223b00361a396177a9cb410ff61f20015ad" := by decide

theorem sha256Hex_empty :
    sha256Hex [] =
      "e3b0c44298fc1c149afbf4c8996fb92427ae41e4649b934ca495991b7852b855" := by decide

/-! Structural lemmas about the store operations. -/

theorem findDayL_appendDays_self (d : Nat) (l : Line) (ds : List (Nat × Partition)) :
    findDayL (appendDays d l ds) d =
      some { readable := match findDayL ds d with | none => true | some p => p.readable,
             lines := (match findDayL ds d with | none => [] | some p => p.lines) ++ [l] } := by
  induction ds with
  | nil => simp [findDayL, appendDays, List.find?]
  | cons p rest ih =>
      cases hq : p.1 == d with
      | true => simp [findDayL, appendDays, List.find?, hq]
      | false => simpa [findDayL, appendDays, List.find?, hq] using ih

theorem beq_false_of_ne (α : Type) [BEq α] [LawfulBEq α] (a b : α) (h : a ≠ b) :
    (a == b) = false := by
  cases hb : a == b with
  | true => exact absurd (eq_of_beq hb) h
  | false => rfl

theorem findDayL_appendDays_ne (d d2 : Nat) (l : Line) (ds : List (Nat × Partition))
    (h : d2 ≠ d) : findDayL (appendDays d l ds) d2 = findDayL ds d2 := by
  have hdd : (d == d2) = false := beq_false_of_ne Nat d d2 (Ne.symm h)
  induction ds with
  | nil => simp [findDayL, appendDays, List.find?, hdd]
  | cons p rest ih =>
      by_cases hp : p.1 = d
      · have h2 : (p.1 == d2) = false := beq_false_of_ne Nat p.1 d2 (by rw [hp]; exact Ne.symm h)
        have h1 : (p.1 == d) = true := by rw [hp]; exact beq_self_eq_true d
        simp [findDayL, appendDays, List.find?, h1, h2, hdd]
      · have h1 : (p.1 == d) = false := beq_false_of_ne Nat p.1 d hp
        by_cases hb : p.1 = d2
        · have h2 : (p.1 == d2) = true := by rw [hb]; exact beq_self_eq_true d2
          simp [findDayL, appendDays, List.find?, h1, h2]
        · have h2 : (p.1 == d2) = false := beq_false_of_ne Nat p.1 d2 hb
          simpa [findDayL, appendDays, List.find?, h1, h2] using ih

theorem partLines_appendLine_self (st : AuditState) (d : Nat) (l : Line) :
    partLines (appendLine st d l) d = partLines st d ++ [l] := by
  unfold partLines appendLine lookupDay
  rw [findDayL_appendDays_self]

theorem readableAt_appendLine_self (st : AuditState) (d : Nat) (l : Line) :
    readableAt (appendLine st d l) d = readableAt st d := by
  unfold readableAt appendLine lookupDay
  rw [findDayL_appendDays_self]

theorem lookupDay_appendLine_ne (st : AuditState) (d d2 : Nat) (l : Line) (h : d2 ≠ d) :
    lookupDay (appendLine st d l) d2 = lookupDay st d2 := by
  unfold appendLine lookupDay
  exact findDayL_appendDays_ne d d2 l st.days h

theorem lookupDay_removeDay_self (st : AuditState) (d : Nat) :
    lookupDay (removeDay st d) d = none := by
  unfold removeDay lookupDay findDayL
  induction st.days with
  | nil => simp
  | cons p rest ih =>
      by_cases hp : p.1 = d
      · have h1 : (p.1 != d) = false := by simp [hp]
        simp only [List.filter_cons, h1]
        exact ih
      · have h1 : (p.1 != d) = true := by simp [hp]
        have h2 : (p.1 == d) = false := beq_false_of_ne Nat p.1 d hp
        simp only [List.filter_cons, List.find?, h1, h2]
        exact ih

theorem lookupDay_removeDay_ne (st : AuditState) (d d2 : Nat) (h : d2 ≠ d) :
    lookupDay (removeDay st d) d2 = lookupDay st d2 := by
  unfold removeDay lookupDay findDayL
  induction st.days with
  | nil => simp
  | cons p rest ih =>
      by_cases hp : p.1 = d
      · have h1 : (p.1 != d) = false := by simp [hp]
        have h2 : (p.1 == d2) = false :=
          beq_false_of_ne Nat p.1 d2 (by rw [hp]; exact Ne.symm h)
        simpa [List.filter_cons, List.find?, h1, h2] using ih
      · have h1 : (p.1 != d) = true := by simp [hp]
        by_cases hb : p.1 = d2
        · have h2 : (p.1 == d2) = true := by rw [hb]; exact beq_self_eq_true d2
          simp [List.filter_cons, List.find?, h1, h2]
        · have h2 : (p.1 == d2) = false := beq_false_of_ne Nat p.1 d2 hb
          simp only [List.filter_cons, List.find?, h1, h2]
          exact ih

/-! Lemmas about one audit append. -/

theorem storedEntry_user (st : AuditState) (now : Nat) (a : EvArgs) :
    jGet (storedEntry st now a) "user_id" = some (.str a.user_id) := rfl

theorem storedEntry_action (st : AuditState) (now : Nat) (a : EvArgs) :
    jGet (storedEntry st now a) "action" = some (.str a.action) := rfl

theorem storedEntry_resource (st : AuditState) (now : Nat) (a : EvArgs) :
    jGet (storedEntry st now a) "resource" = some (.str a.resource) := rfl

theorem storedEntry_details (st : AuditState) (now : Nat) (a : EvArgs) :
    jGet (storedEntry st now a) "details" = some (.obj (a.details.getD .nil)) := rfl

theorem storedEntry_prev (st : AuditState) (now : Nat) (a : EvArgs) :
    jGet (storedEntry st now a) "prev_hash" =
      some ((getLastHash st (now / 86400)).getD .null) := rfl

theorem storedEntry_hashField (st : AuditState) (now : Nat) (a : EvArgs) :
    jGet (storedEntry st now a) "hash" =
      some (.str (compute_hash ((hashPfx (getLastHash st (now / 86400))).getD "")
        (jfAppend (entryCore a) ("prev_hash", (getLastHash st (now / 86400)).getD .null)))) :=
  rfl

theorem removeKey_storedEntry_hash (st : AuditState) (now : Nat) (a : EvArgs) :
    removeKey (storedEntry st now a) "hash" =
      jfAppend (entryCore a) ("prev_hash", (getLastHash st (now / 86400)).getD .null) := rfl

theorem log_event_eq_some (st : AuditState) (now : Nat) (a : EvArgs)
    (h : appendOk st now = true) :
    log_event st now a =
      some (appendLine st (now / 86400) (.ok (storedEntry st now a)), a.event_id) := by
  unfold appendOk at h
  cases hp : hashPfx (getLastHash st (now / 86400)) with
  | none => rw [hp] at h; simp at h
  | some pfx => simp [log_event, storedEntry, hp]

theorem appendOk_appendLine_ok (st : AuditState) (now : Nat) (fs : JFields) (h : String)
    (hh : jGet fs "hash" = some (.str h)) :
    appendOk (appendLine st (now / 86400) (.ok fs)) now = true := by
  unfold appendOk getLastHash
  unfold appendLine lookupDay
  rw [findDayL_appendDays_self]
  have hpy : pyGet fs "hash" = some (.str h) := by unfold pyGet; rw [hh]
  cases hr : (match findDayL st.days (now / 86400) with | none => true | some p => p.readable) with
  | false => simp [hr, hashPfx]
  | true =>
      simp only [hr, if_true, List.getLast?_concat, lineHash, hpy]
      cases htr : jTruthy (JVal.str h) <;> simp [hashPfx, htr]

theorem getLast?_all (f : Line → Bool) :
    ∀ (l : List Line) (x : Line), l.all f = true → l.getLast? = some x → f x = true
  | [], x, _, hx => by simp at hx
  | [a], x, hall, hx => by
      simp at hx
      subst hx
      simpa using hall
  | a :: b :: rest, x, hall, hx => by
      have h2 : (b :: rest).all f = true := by
        simp only [List.all_cons, Bool.and_eq_true] at hall
        simp [hall.2]
      have hx2 : (b :: rest).getLast? = some x := by
        simpa [List.getLast?_cons_cons] using hx
      exact getLast?_all f (b :: rest) x h2 hx2

theorem getLastHash_eq_lastEntryHash (st : AuditState) (d : Nat)
    (h : wfToday st d = true) : getLastHash st d = lastEntryHash st d := by
  unfold wfToday at h
  unfold getLastHash lastEntryHash partLines
  cases hld : lookupDay st d with
  | none => simp
  | some p =>
      rw [hld] at h
      have hr : p.readable = true := ((Bool.and_eq_true _ _).mp h).1
      have hall := ((Bool.and_eq_true _ _).mp h).2
      cases hg : p.lines.getLast? with
      | none => simp [hr, hg]
      | some l =>
          have hf := getLast?_all _ p.lines l hall hg
          cases l with
          | ok fs => simp [hr, hg, lineHash]
          | bad => simp at hf

theorem getLastHash_none_of_bad (st : AuditState) (d : Nat)
    (h : lastBadOrUnreadable st d = true) : getLastHash st d = none := by
  unfold lastBadOrUnreadable at h
  unfold getLastHash
  cases hld : lookupDay st d with
  | none => rfl
  | some p =>
      rw [hld] at h
      dsimp only [] at h ⊢
      cases hr : p.readable with
      | false => simp [hr]
      | true =>
          rw [hr] at h
          simp only [Bool.not_true, Bool.false_or] at h
          cases hg : p.lines.getLast? with
          | none => rw [hg] at h; simp at h
          | some l =>
              rw [hg] at h
              cases l with
              | ok fs => simp at h
              | bad => simp [hr, hg, lineHash]

theorem hashPfx_getD_eq_pfxStr (v : Option JVal) (h : (hashPfx v).isSome = true) :
    (hashPfx v).getD "" = pfxStr v := by
  cases v with
  | none => rfl
  | some w =>
      unfold hashPfx at h ⊢
      dsimp only [] at h ⊢
      cases htr : jTruthy w with
      | false =>
          rw [if_neg (by simp)]
          cases w with
          | str s =>
              have hs : s = "" := by simpa [jTruthy] using htr
              simp [pfxStr, hs]
          | null => rfl
          | bool b => rfl
          | int n => rfl
          | arr xs => rfl
          | obj fs => rfl
      | true =>
          rw [if_pos htr] at h
          rw [if_pos rfl]
          cases w with
          | str s => rfl
          | null => simp at h
          | bool b => simp at h
          | int n => simp at h
          | arr xs => simp at h
          | obj fs => simp at h

/-- C1, corrected.  For a record call on a current day-partition that is
readable and fully well formed, the stored entry's `prev_hash` equals the
hash field of the partition's last entry (the absence marker when the
partition is new or empty), and the stored `hash` equals the SHA-256
digest of `prev_hash` concatenated with the canonical sorted JSON
serialization of the entry's fields excluding `hash` only — the
serialization still contains the `prev_hash` field, contrary to the
frozen claim. -/
theorem C1_log_event_hash_chain (st : AuditState) (now : Nat) (a : EvArgs)
    (hOk : appendOk st now = true) (hWF : wfToday st (now / 86400) = true) :
    C1Concl st now a := by
  refine ⟨_, log_event_eq_some st now a hOk, partLines_appendLine_self st _ _, ?_, ?_⟩
  · rw [storedEntry_prev, getLastHash_eq_lastEntryHash st _ hWF]
  · rw [storedEntry_hashField, removeKey_storedEntry_hash]
    rw [← getLastHash_eq_lastEntryHash st _ hWF]
    unfold compute_hash
    rw [hashPfx_getD_eq_pfxStr _ hOk]

/-- Witness for C1 on a concrete store with one chained entry. -/
theorem C1_witness :
    appendOk auditW 50 = true ∧ wfToday auditW (50 / 86400) = true ∧
      C1Concl auditW 50 argsW :=
  ⟨by decide, by decide, C1_log_event_hash_chain auditW 50 argsW (by decide) (by decide)⟩

set_option maxRecDepth 1000000 in
/-- C1 as frozen is false on the code: for the first append into an empty
store, the hash the code stores differs from the digest over the
serialization that also excludes `prev_hash`. -/
theorem C1_counterexample :
    ((log_event auditEmpty 0 argsW).bind (fun r => getLastHash r.1 0)) ≠
      some (.str (claimHashC1 auditEmpty 0 argsW)) := by decide

/-- C10.  When the current day-partition ends in a malformed line or its
file cannot be read, `_get_last_hash` returns the absence marker, and the
next `log_event` writes its entry with a null `prev_hash`, silently
starting a new chain instead of failing. -/
theorem C10_chain_restart (st : AuditState) (now : Nat) (a : EvArgs)
    (h : lastBadOrUnreadable st (now / 86400) = true) : C10Concl st now a := by
  have hnone := getLastHash_none_of_bad st (now / 86400) h
  have hOk : appendOk st now = true := by unfold appendOk; rw [hnone]; rfl
  refine ⟨hnone, _, log_event_eq_some st now a hOk, partLines_appendLine_self st _ _, ?_⟩
  rw [storedEntry_prev, hnone]
  rfl

/-- Witness for C10 on a store whose current partition ends in a
malformed line. -/
theorem C10_witness :
    lastBadOrUnreadable auditBadTail (50 / 86400) = true ∧ C10Concl auditBadTail 50 argsW :=
  ⟨by decide, C10_chain_restart auditBadTail 50 argsW (by decide)⟩

/-! Lemmas about the consent store operations. -/

theorem lookupConsent_putConsent_self (cs : List (String × CFile)) (eid : String) (f : CFile) :
    lookupConsent (putConsent eid f cs) eid = some f := by
  induction cs with
  | nil => simp [putConsent, lookupConsent, List.find?]
  | cons p rest ih =>
      by_cases hp : p.1 = eid
      · have h1 : (p.1 == eid) = true := by rw [hp]; exact beq_self_eq_true eid
        simp [putConsent, lookupConsent, List.find?, h1]
      · have h1 : (p.1 == eid) = false := beq_false_of_ne String p.1 eid hp
        simpa [putConsent, lookupConsent, List.find?, h1] using ih

theorem lookupConsent_putConsent_ne (cs : List (String × CFile)) (eid k : String) (f : CFile)
    (h : k ≠ eid) : lookupConsent (putConsent eid f cs) k = lookupConsent cs k := by
  have hek : (eid == k) = false := beq_false_of_ne String eid k (Ne.symm h)
  induction cs with
  | nil => simp [putConsent, lookupConsent, List.find?, hek]
  | cons p rest ih =>
      by_cases hp : p.1 = eid
      · have h1 : (p.1 == eid) = true := by rw [hp]; exact beq_self_eq_true eid
        have h2 : (p.1 == k) = false :=
          beq_false_of_ne String p.1 k (by rw [hp]; exact Ne.symm h)
        simp [putConsent, lookupConsent, List.find?, h1, h2, hek]
      · have h1 : (p.1 == eid) = false := beq_false_of_ne String p.1 eid hp
        by_cases hb : p.1 = k
        · have h2 : (p.1 == k) = true := by rw [hb]; exact beq_self_eq_true k
          simp [putConsent, lookupConsent, List.find?, h1, h2]
        · have h2 : (p.1 == k) = false := beq_false_of_ne String p.1 k hb
          simpa [putConsent, lookupConsent, List.find?, h1, h2] using ih

theorem get_consent_missing (st : SysState) (now : Nat) (eid : String)
    (meta : String × String) (h : lookupConsent st.consents eid = none) :
    get_consent st now eid meta = (none, st) := by
  unfold get_consent
  rw [h]

theorem get_consent_badfile (st : SysState) (now : Nat) (eid : String)
    (meta : String × String) (h : lookupConsent st.consents eid = some .bad) :
    get_consent st now eid meta = (none, st) := by
  unfold get_consent
  rw [h]

theorem get_consent_found (st : SysState) (now : Nat) (eid : String) (meta : String × String)
    (r : CRec) (hOk : appendOk st.audit now = true)
    (hr : lookupConsent st.consents eid = some (.ok r)) :
    get_consent st now eid meta =
      (some r,
       { audit := appendLine st.audit (now / 86400)
           (.ok (storedEntry st.audit now (accessArgs eid meta))),
         consents := st.consents }) := by
  unfold get_consent
  rw [hr, log_event_eq_some st.audit now _ hOk]

/-- C3.  `is_monitoring_allowed` is `false` for an absent record, `false`
for an unparsable stored expiration, `false` when `now` is strictly past
the expiration (even with `monitoring_enabled` set), and the stored
`monitoring_enabled` flag otherwise. -/
theorem C3_is_monitoring_allowed (st : SysState) (now : Nat) (eid : String)
    (meta : String × String) (hOk : appendOk st.audit now = true) :
    C3Concl st now eid meta := by
  refine ⟨?_, ?_, ?_, ?_⟩
  · intro h
    unfold is_monitoring_allowed
    rw [get_consent_missing st now eid meta h]
  · intro r h hexp
    unfold is_monitoring_allowed
    rw [get_consent_found st now eid meta r hOk h]
    dsimp only []
    rw [hexp]
  · intro r t h hexp hgt
    unfold is_monitoring_allowed
    rw [get_consent_found st now eid meta r hOk h]
    dsimp only []
    rw [hexp]
    dsimp only []
    rw [if_pos hgt]
  · intro r t h hexp hgt
    unfold is_monitoring_allowed
    rw [get_consent_found st now eid meta r hOk h]
    dsimp only []
    rw [hexp]
    dsimp only []
    rw [if_neg hgt]

/-- Witness for C3 on a store holding a live record, an unparsable one
and an unreadable file. -/
theorem C3_witness :
    appendOk sysW.audit 100 = true ∧ C3Concl sysW 100 "e1" ("u0", "t0") :=
  ⟨by decide, C3_is_monitoring_allowed sysW 100 "e1" ("u0", "t0") (by decide)⟩

/-- C8.  `get_consent` returns the absent result (not an error) for an
unknown subject, and on a successful lookup logs one `access_consent`
audit event and returns the stored record. -/
theorem C8_get_consent (st : SysState) (now : Nat) (eid : String) (meta : String × String)
    (hOk : appendOk st.audit now = true) : C8Concl st now eid meta := by
  refine ⟨fun h => get_consent_missing st now eid meta h, fun r h => ?_⟩
  exact ⟨_, get_consent_found st now eid meta r hOk h,
    .ok (storedEntry st.audit now (accessArgs eid meta)),
    partLines_appendLine_self _ _ _, rfl, rfl⟩

/-- Witness for C8. -/
theorem C8_witness :
    appendOk sysW.audit 100 = true ∧ C8Concl sysW 100 "e1" ("u0", "t0") :=
  ⟨by decide, C8_get_consent sysW 100 "e1" ("u0", "t0") (by decide)⟩

/-- C9.  A consent file whose read or parse raises makes `get_consent`
return the absent result with the state untouched, indistinguishable from
a missing record. -/
theorem C9_read_failure_swallowed (st : SysState) (now : Nat) (eid : String)
    (meta : String × String) (hbad : lookupConsent st.consents eid = some .bad) :
    C9Concl st now eid meta :=
  ⟨get_consent_badfile st now eid meta hbad,
   fun cs2 h2 => get_consent_missing { audit := st.audit, consents := cs2 } now eid meta h2⟩

/-- Witness for C9 on the unreadable consent file of `sysW`. -/
theorem C9_witness :
    lookupConsent sysW.consents "e3" = some CFile.bad ∧ C9Concl sysW 100 "e3" ("u0", "t0") :=
  ⟨by decide, C9_read_failure_swallowed sysW 100 "e3" ("u0", "t0") (by decide)⟩

/-- C4, the code's actual behavior at the failing input: the sweep leaves
a record with unparsable expiration in place and counts no deletion,
while the claim (and the spec's error-handling design) requires the
record to be treated as expired and removed. -/
theorem C4_sweep_keeps_unparsable :
    (apply_retention_policy sysInvalidOnly 1000000 idsW).2 = 0 ∧
    (apply_retention_policy sysInvalidOnly 1000000 idsW).1.consents =
      [("e2", .ok recInvalid)] := by decide

/-- C6.  `set_consent` with the spec interface (no legacy arguments):
expiration is the write time plus the retention (90 days when absent),
the record is rebuilt from the inputs alone and fully replaces any prior
record, other subjects are untouched, one `set_consent` audit event with
the new settings is appended, and the returned record carries the given
`monitoring_enabled`. -/
theorem C6_set_consent (st : SysState) (now : Nat) (eid : String) (monitoring : Bool)
    (retention_days : Option Int) (data_categories : Option (List String))
    (requester_id lu : String) (meta : String × String)
    (hOk : appendOk st.audit now = true) :
    C6Concl st now eid monitoring retention_days data_categories requester_id lu meta := by
  unfold C6Concl set_consent
  simp only [Option.getD_none, log_event_eq_some st.audit now _ hOk]
  refine ⟨_, _, rfl, rfl, lookupConsent_putConsent_self _ _ _,
    fun k hk => lookupConsent_putConsent_ne _ _ _ _ hk,
    .ok (storedEntry st.audit now (setArgs eid monitoring (retention_days.getD 90)
      (data_categories.getD ["all"]) requester_id meta)),
    partLines_appendLine_self _ _ _, rfl, rfl, rfl⟩

/-- Loop invariant of the consent retention sweep: the accumulated audit
state only grows by the deletion events of the expired records, keys and
count accumulate in order, and appendability is preserved. -/
theorem retentionGo_spec (now : Nat) (ids : Nat → String × String) :
    ∀ (cs : List (String × CFile)) (au : AuditState) (dels : List String) (cnt : Nat),
      appendOk au now = true →
      ∃ au2 evs,
        retentionGo now ids cs au dels cnt =
          (au2, dels ++ (cs.filter (fun p => isExpired now p.2)).map Prod.fst,
            cnt + (cs.filter (fun p => isExpired now p.2)).length) ∧
        partLines au2 (now / 86400) = partLines au (now / 86400) ++ evs ∧
        List.Forall₂ delEvSpec evs (cs.filter (fun p => isExpired now p.2)) ∧
        appendOk au2 now = true := by
  intro cs
  induction cs with
  | nil =>
      intro au dels cnt hOk
      exact ⟨au, [], by simp [retentionGo], by simp, List.Forall₂.nil, hOk⟩
  | cons p rest ih =>
      intro au dels cnt hOk
      obtain ⟨eid, f⟩ := p
      cases f with
      | bad =>
          obtain ⟨au2, evs, h1, h2, h3, h4⟩ := ih au dels cnt hOk
          refine ⟨au2, evs, ?_, h2, ?_, h4⟩
          · simpa [retentionGo, List.filter_cons, isExpired] using h1
          · simpa [List.filter_cons, isExpired] using h3
      | ok r =>
          cases hexp : r.expiration_date with
          | invalid =>
              obtain ⟨au2, evs, h1, h2, h3, h4⟩ := ih au dels cnt hOk
              refine ⟨au2, evs, ?_, h2, ?_, h4⟩
              · simpa [retentionGo, List.filter_cons, isExpired, hexp] using h1
              · simpa [List.filter_cons, isExpired, hexp] using h3
          | iso t =>
              by_cases hgt : (now : Int) > t
              · have hlog := log_event_eq_some au now (delConsentArgs eid (ids cnt)) hOk
                set entry := storedEntry au now (delConsentArgs eid (ids cnt)) with hentry
                have hOk2 : appendOk (appendLine au (now / 86400) (.ok entry)) now = true :=
                  appendOk_appendLine_ok au now entry _ (storedEntry_hashField au now _)
                obtain ⟨au2, evs, h1, h2, h3, h4⟩ :=
                  ih (appendLine au (now / 86400) (.ok entry)) (dels ++ [eid]) (cnt + 1) hOk2
                have hfil : ((eid, CFile.ok r) :: rest).filter (fun p => isExpired now p.2) =
                    (eid, CFile.ok r) :: rest.filter (fun p => isExpired now p.2) := by
                  simp [List.filter_cons, isExpired, hexp, hgt]
                refine ⟨au2, .ok entry :: evs, ?_, ?_, ?_, h4⟩
                · have hred : retentionGo now ids ((eid, .ok r) :: rest) au dels cnt =
                      retentionGo now ids rest (appendLine au (now / 86400) (.ok entry))
                        (dels ++ [eid]) (cnt + 1) := by
                    simp only [retentionGo, hexp, if_pos hgt, hlog]
                  rw [hred, h1, hfil]
                  simp only [Prod.mk.injEq, List.map_cons, List.length_cons, true_and,
                    eq_self_iff_true]
                  refine ⟨?_, ?_⟩
                  · simp [List.append_assoc]
                  · omega
                · rw [h2, partLines_appendLine_self]
                  simp
                · rw [hfil]
                  exact List.Forall₂.cons ⟨rfl, rfl, rfl⟩ h3
              · obtain ⟨au2, evs, h1, h2, h3, h4⟩ := ih au dels cnt hOk
                refine ⟨au2, evs, ?_, h2, ?_, h4⟩
                · have hred : retentionGo now ids ((eid, .ok r) :: rest) au dels cnt =
                      retentionGo now ids rest au dels cnt := by
                    simp only [retentionGo, hexp, if_neg hgt]
                  rw [hred, h1]
                  simp [List.filter_cons, isExpired, hexp, if_neg hgt]
                · simpa [List.filter_cons, isExpired, hexp, if_neg hgt] using h3

/-- Key filtering of the sweep result: with distinct subject keys,
removing the collected expired keys is the same as keeping the
non-expired records. -/
theorem filter_not_mem_keys (now : Nat) (cs : List (String × CFile))
    (hNd : (cs.map Prod.fst).Nodup) :
    cs.filter
        (fun p => !(((cs.filter (fun q => isExpired now q.2)).map Prod.fst).contains p.1)) =
      cs.filter (fun p => !isExpired now p.2) := by
  apply List.filter_congr
  intro p hp
  have hiff :
      (((cs.filter (fun q => isExpired now q.2)).map Prod.fst).contains p.1) =
        isExpired now p.2 := by
    cases hex : isExpired now p.2 with
    | true =>
        have hmem : p.1 ∈ (cs.filter (fun q => isExpired now q.2)).map Prod.fst :=
          List.mem_map_of_mem _ (List.mem_filter.mpr ⟨hp, hex⟩)
        simpa [List.contains, List.elem_iff] using hmem
    | false =>
        cases hc : ((cs.filter (fun q => isExpired now q.2)).map Prod.fst).contains p.1 with
        | false => rfl
        | true =>
            exfalso
            have hmem : p.1 ∈ (cs.filter (fun q => isExpired now q.2)).map Prod.fst := by
              simpa [List.contains, List.elem_iff] using hc
            obtain ⟨q, hq, hq1⟩ := List.mem_map.mp hmem
            have hqcs := (List.mem_filter.mp hq).1
            have hqex := (List.mem_filter.mp hq).2
            have hqp : q = p := List.inj_on_of_nodup_map hNd hqcs hp hq1
            rw [hqp, hex] at hqex
            exact Bool.false_ne_true hqex
  rw [hiff]

/-- C5.  The sweep (no external logger) deletes exactly the records whose
parsed expiration lies strictly before `now`, emits one `delete_consent`
event per deleted record, leaves all other records untouched, and returns
the number removed. -/
theorem C5_apply_retention (st : SysState) (now : Nat) (ids : Nat → String × String)
    (hOk : appendOk st.audit now = true)
    (hNd : (st.consents.map Prod.fst).Nodup) : C5Concl st now ids := by
  obtain ⟨au2, evs, h1, h2, h3, h4⟩ := retentionGo_spec now ids st.consents st.audit [] 0 hOk
  unfold C5Concl apply_retention_policy
  rw [h1]
  dsimp only []
  refine ⟨by simp, ?_, evs, h2, h3⟩
  simp only [List.nil_append]
  exact filter_not_mem_keys now st.consents hNd

/-- Witness for C5 on a store holding an expired record, an unparsable
one and an unreadable file. -/
theorem C5_witness :
    appendOk sysW.audit 1000 = true ∧ (sysW.consents.map Prod.fst).Nodup ∧
      C5Concl sysW 1000 idsW :=
  ⟨by decide, by decide, C5_apply_retention sysW 1000 idsW (by decide) (by decide)⟩

/-- Witness for C6. -/
theorem C6_witness :
    appendOk sysW.audit 100 = true ∧
      C6Concl sysW 100 "e9" true (some 30) (some ["logs"]) "admin" "lu0" ("u0", "t0") :=
  ⟨by decide,
   C6_set_consent sysW 100 "e9" true (some 30) (some ["logs"]) "admin" "lu0" ("u0", "t0")
     (by decide)⟩

/-! Lemmas about the query scan. -/

theorem matchingEntries_cons_ok (u a : String) (fs : JFields) (rest : List Line) :
    matchingEntries u a (.ok fs :: rest) =
      if passFilters u a fs then fs :: matchingEntries u a rest
      else matchingEntries u a rest := by
  simp only [matchingEntries, List.filterMap_cons]
  by_cases hp : passFilters u a fs = true
  · simp [hp]
  · simp [Bool.eq_false_iff.mpr hp, hp]

theorem matchingEntries_cons_bad (u a : String) (rest : List Line) :
    matchingEntries u a (.bad :: rest) = matchingEntries u a rest := by
  simp [matchingEntries, List.filterMap_cons]

theorem scanLines_spec (limit : Nat) (u a : String) :
    ∀ (lines : List Line) (acc : List JFields), acc.length < limit →
      scanLines limit u a lines acc =
        (if limit ≤ (acc ++ matchingEntries u a lines).length
         then ((acc ++ matchingEntries u a lines).take limit, true)
         else (acc ++ matchingEntries u a lines, false)) := by
  intro lines
  induction lines with
  | nil =>
      intro acc hacc
      have h1 : ¬(limit ≤ acc.length) := Nat.not_le_of_lt hacc
      simp [scanLines, matchingEntries, h1]
  | cons l rest ih =>
      intro acc hacc
      cases l with
      | bad =>
          rw [show scanLines limit u a (.bad :: rest) acc = scanLines limit u a rest acc
            from rfl]
          rw [ih acc hacc, matchingEntries_cons_bad]
      | ok fs =>
          by_cases hp : passFilters u a fs = true
          · rw [show scanLines limit u a (.ok fs :: rest) acc =
                (if passFilters u a fs
                 then (if limit ≤ (acc ++ [fs]).length
                       then ((acc ++ [fs]).take limit, true)
                       else scanLines limit u a rest (acc ++ [fs]))
                 else scanLines limit u a rest acc) from rfl]
            rw [if_pos hp, matchingEntries_cons_ok, if_pos hp]
            by_cases hl : limit ≤ (acc ++ [fs]).length
            · rw [if_pos hl]
              have hlen : limit ≤ (acc ++ fs :: matchingEntries u a rest).length := by
                simp at hl ⊢
                omega
              rw [if_pos hlen]
              have hsplit : acc ++ fs :: matchingEntries u a rest =
                  (acc ++ [fs]) ++ matchingEntries u a rest := by
                simp
              rw [hsplit, List.take_append_of_le_length hl]
            · rw [if_neg hl]
              have hlt : (acc ++ [fs]).length < limit := Nat.lt_of_not_le hl
              rw [ih (acc ++ [fs]) hlt]
              have hsplit : acc ++ fs :: matchingEntries u a rest =
                  (acc ++ [fs]) ++ matchingEntries u a rest := by
                simp
              rw [hsplit]
          · rw [show scanLines limit u a (.ok fs :: rest) acc =
                (if passFilters u a fs
                 then (if limit ≤ (acc ++ [fs]).length
                       then ((acc ++ [fs]).take limit, true)
                       else scanLines limit u a rest (acc ++ [fs]))
                 else scanLines limit u a rest acc) from rfl]
            rw [if_neg hp, matchingEntries_cons_ok, if_neg hp, ih acc hacc]

theorem scanFiles_spec (limit : Nat) (u a : String) :
    ∀ (ps : List (Nat × Partition)) (acc : List JFields),
      ps.all (fun p => p.2.readable) = true → acc.length < limit →
      scanFiles limit u a ps acc =
        some ((acc ++ (ps.map (fun p => matchingEntries u a p.2.lines)).flatten).take limit) := by
  intro ps
  induction ps with
  | nil =>
      intro acc _ _
      simp [scanFiles]
  | cons p rest ih =>
      intro acc hall hacc
      have hr : p.2.readable = true := by
        simp only [List.all_cons, Bool.and_eq_true] at hall
        exact hall.1
      have hrest : rest.all (fun p => p.2.readable) = true := by
        simp only [List.all_cons, Bool.and_eq_true] at hall
        exact hall.2
      obtain ⟨d, pt⟩ := p
      rw [show scanFiles limit u a ((d, pt) :: rest) acc =
          (if pt.readable
           then (match scanLines limit u a pt.lines acc with
                 | (acc2, true) => some acc2
                 | (acc2, false) => scanFiles limit u a rest acc2)
           else none) from rfl]
      rw [if_pos hr, scanLines_spec limit u a pt.lines acc hacc]
      by_cases hl : limit ≤ (acc ++ matchingEntries u a pt.lines).length
      · rw [if_pos hl]
        dsimp only []
        have hsplit : acc ++ ((matchingEntries u a pt.lines) ::
            rest.map (fun p => matchingEntries u a p.2.lines)).flatten =
            (acc ++ matchingEntries u a pt.lines) ++
              (rest.map (fun p => matchingEntries u a p.2.lines)).flatten := by
          simp
        rw [List.map_cons, hsplit, List.take_append_of_le_length hl]
      · rw [if_neg hl]
        dsimp only []
        have hlt : (acc ++ matchingEntries u a pt.lines).length < limit := Nat.lt_of_not_le hl
        rw [ih (acc ++ matchingEntries u a pt.lines) hrest hlt]
        have hsplit : acc ++ ((matchingEntries u a pt.lines) ::
            rest.map (fun p => matchingEntries u a p.2.lines)).flatten =
            (acc ++ matchingEntries u a pt.lines) ++
              (rest.map (fun p => matchingEntries u a p.2.lines)).flatten := by
          simp
        rw [List.map_cons, hsplit]

theorem scanLines_zero_acc (u a : String) :
    ∀ lines : List Line, (scanLines 0 u a lines []).1 = [] := by
  intro lines
  induction lines with
  | nil => rfl
  | cons l rest ih =>
      cases l with
      | bad => exact ih
      | ok fs =>
          by_cases hp : passFilters u a fs = true
          · rw [show scanLines 0 u a (.ok fs :: rest) [] =
                (if passFilters u a fs
                 then (if 0 ≤ ([] ++ [fs] : List JFields).length
                       then ((([] : List JFields) ++ [fs]).take 0, true)
                       else scanLines 0 u a rest ([] ++ [fs]))
                 else scanLines 0 u a rest []) from rfl]
            simp [hp]
          · rw [show scanLines 0 u a (.ok fs :: rest) [] =
                (if passFilters u a fs
                 then (if 0 ≤ ([] ++ [fs] : List JFields).length
                       then ((([] : List JFields) ++ [fs]).take 0, true)
                       else scanLines 0 u a rest ([] ++ [fs]))
                 else scanLines 0 u a rest []) from rfl]
            rw [if_neg hp]
            exact ih

theorem scanFiles_zero (u a : String) :
    ∀ ps : List (Nat × Partition), ps.all (fun p => p.2.readable) = true →
      scanFiles 0 u a ps [] = some [] := by
  intro ps
  induction ps with
  | nil => intro _; rfl
  | cons p rest ih =>
      intro hall
      have hr : p.2.readable = true := by
        simp only [List.all_cons, Bool.and_eq_true] at hall
        exact hall.1
      have hrest : rest.all (fun p => p.2.readable) = true := by
        simp only [List.all_cons, Bool.and_eq_true] at hall
        exact hall.2
      obtain ⟨d, pt⟩ := p
      rw [show scanFiles 0 u a ((d, pt) :: rest) [] =
          (if pt.readable
           then (match scanLines 0 u a pt.lines [] with
                 | (acc2, true) => some acc2
                 | (acc2, false) => scanFiles 0 u a rest acc2)
           else none) from rfl]
      rw [if_pos hr]
      have hfst := scanLines_zero_acc u a pt.lines
      cases hsc : scanLines 0 u a pt.lines [] with
      | mk acc2 flag =>
          rw [hsc] at hfst
          dsimp at hfst
          subst hfst
          cases flag with
          | true => rfl
          | false => exact ih hrest

/-- C7, corrected.  A query returns at most `limit` entries — exactly the
parse-able entries of the in-range partitions that pass the filters,
truncated to `limit` with the scan stopping as soon as `limit` entries
are collected, malformed lines skipped — in directory-listing order of
the partitions with within-partition append order preserved.  The code
never sorts the listing, so oldest-partition-first holds only when the
listing happens to be date-sorted. -/
theorem C7_get_logs (st : AuditState) (sd ed : Option Nat) (u a : String) (limit : Nat)
    (hr : (st.days.filter (fun p => keepFile sd ed p.1)).all (fun p => p.2.readable) = true) :
    C7Concl st sd ed u a limit := by
  unfold C7Concl get_logs specLogs
  cases limit with
  | zero => rw [scanFiles_zero u a _ hr]; simp
  | succ n =>
      rw [scanFiles_spec (n + 1) u a _ [] hr (by simp)]
      simp

/-- Witness for C7 on the two-partition store listed newest-first. -/
theorem C7_witness :
    (auditUnsorted.days.filter (fun p => keepFile none none p.1)).all
        (fun p => p.2.readable) = true ∧
      C7Concl auditUnsorted none none "" "" 10 :=
  ⟨by decide, C7_get_logs auditUnsorted none none "" "" 10 (by decide)⟩

/-- C7 as frozen is false on the code: when the directory listing
enumerates the day-2 partition before the day-1 partition, the query
returns the day-2 entry first, not oldest-partition-first. -/
theorem C7_counterexample :
    get_logs auditUnsorted none none "" "" 10 = some [entryDay2, entryDay1] ∧
      entryDay2 ≠ entryDay1 := by decide

/-! Lemmas about the prune loop. -/

theorem partLines_removeDay_ne (st : AuditState) (d d2 : Nat) (h : d2 ≠ d) :
    partLines (removeDay st d) d2 = partLines st d2 := by
  unfold partLines
  rw [lookupDay_removeDay_ne st d d2 h]

theorem appendOk_removeDay_ne (st : AuditState) (d : Nat) (now : Nat)
    (h : now / 86400 ≠ d) : appendOk (removeDay st d) now = appendOk st now := by
  unfold appendOk getLastHash
  rw [lookupDay_removeDay_ne st d (now / 86400) h]

theorem old_day_ne_today (now retention d : Nat) (hRet : 1 ≤ retention)
    (hdel : (d : Int) * 86400 < (now : Int) - (retention : Int) * 86400) :
    d ≠ now / 86400 := by
  intro he
  subst he
  omega

theorem oldOf_cons_pos (now retention d : Nat) (rest : List Nat)
    (hdel : (d : Int) * 86400 < (now : Int) - (retention : Int) * 86400) :
    oldOf now retention (d :: rest) = d :: oldOf now retention rest := by
  simp [oldOf, List.filter_cons, hdel]

theorem oldOf_cons_neg (now retention d : Nat) (rest : List Nat)
    (hdel : ¬((d : Int) * 86400 < (now : Int) - (retention : Int) * 86400)) :
    oldOf now retention (d :: rest) = oldOf now retention rest := by
  simp [oldOf, List.filter_cons, hdel]

/-- Loop invariant of the prune: partitions dated before the cutoff are
removed (one deletion event each appended to the current partition, which
is never among them for a positive retention window), other partitions
except the current one are untouched, and the count accumulates. -/
theorem cleanupGo_spec (now retention : Nat) (ids : Nat → String × String)
    (hRet : 1 ≤ retention) :
    ∀ (ds : List Nat) (stC : AuditState) (cnt : Nat),
      appendOk stC now = true →
      ∃ st2, cleanupGo now retention ids ((now : Int) - (retention : Int) * 86400) ds stC cnt =
          some (st2, cnt + (oldOf now retention ds).length) ∧
        st2.dir = stC.dir ∧
        (∀ d, d ∈ oldOf now retention ds → lookupDay st2 d = none) ∧
        (∀ d, d ∉ oldOf now retention ds → d ≠ now / 86400 →
          lookupDay st2 d = lookupDay stC d) ∧
        ∃ evs, partLines st2 (now / 86400) = partLines stC (now / 86400) ++ evs ∧
          List.Forall₂ (delLogSpec stC.dir) evs (oldOf now retention ds) ∧
          appendOk st2 now = true := by
  intro ds
  induction ds with
  | nil =>
      intro stC cnt hOk
      exact ⟨stC, by simp [cleanupGo, oldOf], rfl, by simp [oldOf], fun d _ _ => rfl,
        [], by simp, by simp [oldOf], hOk⟩
  | cons d rest ih =>
      intro stC cnt hOk
      by_cases hdel : (d : Int) * 86400 < (now : Int) - (retention : Int) * 86400
      · have hne : d ≠ now / 86400 := old_day_ne_today now retention d hRet hdel
        have hlog := log_event_eq_some stC now (delArgs stC.dir d retention (ids cnt)) hOk
        set entry := storedEntry stC now (delArgs stC.dir d retention (ids cnt)) with hentry
        set stA := appendLine stC (now / 86400) (.ok entry) with hstA
        have hOkA : appendOk stA now = true :=
          appendOk_appendLine_ok stC now entry _ (storedEntry_hashField stC now _)
        have hOkB : appendOk (removeDay stA d) now = true := by
          rw [appendOk_removeDay_ne stA d now (Ne.symm hne)]
          exact hOkA
        obtain ⟨st2, h1, hdir, hnone, hunch, evs, hpl, hfa, hOk2⟩ :=
          ih (removeDay stA d) (cnt + 1) hOkB
        have hstep : cleanupGo now retention ids ((now : Int) - (retention : Int) * 86400)
            (d :: rest) stC cnt =
            cleanupGo now retention ids ((now : Int) - (retention : Int) * 86400)
              rest (removeDay stA d) (cnt + 1) := by
          rw [show cleanupGo now retention ids ((now : Int) - (retention : Int) * 86400)
              (d :: rest) stC cnt =
              (if ((d : Int) * 86400 < (now : Int) - (retention : Int) * 86400) then
                match log_event stC now (delArgs stC.dir d retention (ids cnt)) with
                | none => none
                | some (stX, _) =>
                    cleanupGo now retention ids ((now : Int) - (retention : Int) * 86400)
                      rest (removeDay stX d) (cnt + 1)
              else cleanupGo now retention ids ((now : Int) - (retention : Int) * 86400)
                rest stC cnt) from rfl]
          rw [if_pos hdel, hlog]
        refine ⟨st2, ?_, hdir.trans rfl, ?_, ?_, .ok entry :: evs, ?_, ?_, hOk2⟩
        · rw [hstep, h1, oldOf_cons_pos now retention d rest hdel]
          simp only [Option.some.injEq, Prod.mk.injEq, List.length_cons, true_and]
          omega
        · intro d2 hd2
          rw [oldOf_cons_pos now retention d rest hdel] at hd2
          rcases List.mem_cons.mp hd2 with he | hm
          · subst he
            by_cases hmem : d2 ∈ oldOf now retention rest
            · exact hnone d2 hmem
            · rw [hunch d2 hmem (by exact hne), lookupDay_removeDay_self]
          · exact hnone d2 hm
        · intro d2 hd2 hd2t
          rw [oldOf_cons_pos now retention d rest hdel] at hd2
          have hd2d : d2 ≠ d := fun he => hd2 (he ▸ List.mem_cons_self d _)
          have hd2r : d2 ∉ oldOf now retention rest := fun hm => hd2 (List.mem_cons_of_mem d hm)
          rw [hunch d2 hd2r hd2t, lookupDay_removeDay_ne stA d d2 hd2d,
            lookupDay_appendLine_ne stC (now / 86400) d2 (.ok entry) hd2t]
        · rw [hpl, partLines_removeDay_ne stA d (now / 86400) (Ne.symm hne), hstA,
            partLines_appendLine_self]
          simp
        · rw [oldOf_cons_pos now retention d rest hdel]
          exact List.Forall₂.cons ⟨rfl, rfl, rfl⟩ hfa
      · obtain ⟨st2, h1, hdir, hnone, hunch, evs, hpl, hfa, hOk2⟩ := ih stC cnt hOk
        have hstep : cleanupGo now retention ids ((now : Int) - (retention : Int) * 86400)
            (d :: rest) stC cnt =
            cleanupGo now retention ids ((now : Int) - (retention : Int) * 86400)
              rest stC cnt := by
          rw [show cleanupGo now retention ids ((now : Int) - (retention : Int) * 86400)
              (d :: rest) stC cnt =
              (if ((d : Int) * 86400 < (now : Int) - (retention : Int) * 86400) then
                match log_event stC now (delArgs stC.dir d retention (ids cnt)) with
                | none => none
                | some (stX, _) =>
                    cleanupGo now retention ids ((now : Int) - (retention : Int) * 86400)
                      rest (removeDay stX d) (cnt + 1)
              else cleanupGo now retention ids ((now : Int) - (retention : Int) * 86400)
                rest stC cnt) from rfl]
          rw [if_neg hdel]
        have hfil := oldOf_cons_neg now retention d rest hdel
        refine ⟨st2, ?_, hdir, ?_, ?_, evs, hpl, ?_, hOk2⟩
        · rw [hstep, h1, hfil]
        · rw [hfil]; exact hnone
        · rw [hfil]; exact hunch
        · rw [hfil]; exact hfa

/-- C2, corrected to a positive retention window.  `cleanup_old_logs`
removes exactly the day-partitions dated before `now - retention_days`,
logs one deletion event per removed partition — system actor, action
`delete`, resource the partition path — into the current partition
(never deleting it), returns the number removed, and leaves the other
newer partitions unchanged. -/
theorem C2_cleanup_old_logs (st : AuditState) (now retention : Nat)
    (ids : Nat → String × String) (hRet : 1 ≤ retention)
    (hOk : appendOk st now = true) (_hNd : (st.days.map Prod.fst).Nodup) :
    C2Concl st now retention ids := by
  obtain ⟨st2, h1, _, hnone, hunch, evs, hpl, hfa, _⟩ :=
    cleanupGo_spec now retention ids hRet (st.days.map Prod.fst) st 0 hOk
  refine ⟨st2, ?_, hnone, ?_, evs, hpl, hfa⟩
  · rw [show cleanup_old_logs st now retention ids =
        cleanupGo now retention ids ((now : Int) - (retention : Int) * 86400)
          (st.days.map Prod.fst) st 0 from rfl, h1]
    rw [show oldDays st now retention = oldOf now retention (st.days.map Prod.fst) from rfl]
    simp
  · intro d hcond hdt
    apply hunch d ?_ hdt
    intro hm
    exact hcond (of_decide_eq_true (List.mem_filter.mp hm).2)

/-- Witness for C2: a 30-day prune over one old and one current
partition. -/
theorem C2_witness :
    1 ≤ 30 ∧ appendOk auditTwo 8640050 = true ∧
      ((auditTwo.days.map Prod.fst).Nodup) ∧ C2Concl auditTwo 8640050 30 idsW :=
  ⟨by decide, by decide, by decide,
   C2_cleanup_old_logs auditTwo 8640050 30 idsW (by decide) (by decide) (by decide)⟩

set_option maxRecDepth 1000000 in
/-- C2 as frozen is false on the code: with `retention_days = 0` one
second past midnight, the prune logs its deletion event into the current
day-1 partition and then deletes that very partition (count 1, the
partition gone). -/
theorem C2_counterexample :
    (cleanup_old_logs auditCur 86401 0 idsW).map
        (fun r => ((r.1.days.map Prod.fst).contains 1, r.2)) = some (false, 1) := by decide

end PrivacyLogs
